import Mathlib

/-!
Verification development for the URL migration service
(`url_migration_service.py`).  The service polls MongoDB collections and
replaces a configured old URL prefix with a new one inside selected
string-valued fields of each document.

The embedding below models documents as association lists from field
names to a tagged value type, Python string primitives (`in`, `replace`,
`split`, `join`) on `List Char`, the per-collection processing loops with
explicit store outcomes (query failure, per-document update results), and
the statistics record.
-/

namespace UrlMigration

/-- Values stored in a document field.  Only string fields are ever
rewritten; `vNull` models Python `None`, `vTime` models a `datetime`
value (the `updatedAt` timestamp), and `vOther` is an opaque non-string
payload (used for `_id` values and any other content). -/
inductive Value where
  | vStr (s : List Char)
  | vNull
  | vTime (t : Nat)
  | vOther (n : Nat)
deriving DecidableEq, Repr

/-- A MongoDB document: an insertion-ordered mapping from field names to
values (Python dict with unique keys). -/
abbrev Doc := List (String × Value)

/-- Field lookup (`field in data` / `data[field]`). -/
def lookupField (d : Doc) (k : String) : Option Value :=
  match d with
  | [] => none
  | (k', v) :: rest => if k' = k then some v else lookupField rest k

/-- Dict assignment `data[field] = v`: replaces the binding in place if
the key is present, otherwise appends it (Python dict insertion order). -/
def setField (k : String) (v : Value) (d : Doc) : Doc :=
  match d with
  | [] => [(k, v)]
  | (k', v') :: rest => if k' = k then (k, v) :: rest else (k', v') :: setField k v rest

/-- Dict removal `data.pop(field, None)`: removes the binding of the key
(documents have unique keys, so filtering all bindings of the key is the
same operation). -/
def popField (k : String) (d : Doc) : Doc :=
  d.filter (fun p => !(p.1 == k))

/-- Python substring test `pat in s`. -/
def containsSub (pat : List Char) : List Char → Bool
  | [] => pat.isEmpty
  | c :: rest => pat.isPrefixOf (c :: rest) || containsSub pat rest

/-- Helper for `str.replace` with a non-empty pattern: scan left to
right, replacing each non-overlapping occurrence of `pat` by `rep`.
The extra `Nat` is structural-recursion fuel; it is always called with
at least the length of the string, making the fuel-zero case
unreachable. -/
def strReplaceAux (pat rep : List Char) : Nat → List Char → List Char
  | _, [] => []
  | 0, s => s
  | fuel + 1, c :: rest =>
    if pat.isPrefixOf (c :: rest) then
      rep ++ strReplaceAux pat rep fuel (rest.drop (pat.length - 1))
    else c :: strReplaceAux pat rep fuel rest

/-- Interleaving helper for Python `s.replace("", rep)`, which inserts
`rep` after every character. -/
def interAux (rep : List Char) : List Char → List Char
  | [] => []
  | c :: rest => c :: (rep ++ interAux rep rest)

/-- Python `s.replace(pat, rep)`: replaces every occurrence of `pat` in
`s` by `rep` (for the empty pattern, Python inserts `rep` at every
position). -/
def strReplace (pat rep s : List Char) : List Char :=
  if pat.isEmpty then rep ++ interAux rep s
  else strReplaceAux pat rep s.length s

/-- Fueled helper for `str.split` with a non-empty separator; the fuel
is always at least the length of the string. -/
def strSplitAux (pat : List Char) : Nat → List Char → List (List Char)
  | _, [] => [[]]
  | 0, s => [s]
  | fuel + 1, c :: rest =>
    if pat.isPrefixOf (c :: rest) then
      [] :: strSplitAux pat fuel (rest.drop (pat.length - 1))
    else
      match strSplitAux pat fuel rest with
      | [] => [[c]]
      | h :: t => (c :: h) :: t

/-- Python `s.split(pat)` for a non-empty separator `pat`. -/
def strSplit (pat s : List Char) : List (List Char) :=
  strSplitAux pat s.length s

/-- Python `rep.join(pieces)`. -/
def strJoin (rep : List Char) : List (List Char) → List Char
  | [] => []
  | [x] => x
  | x :: y :: t => x ++ rep ++ strJoin rep (y :: t)

/-! Configuration constants (the defaults resolved in `__init__`;
environment parsing is an external collaborator and out of scope). -/

/-- Default `OLD_URL` configuration value. -/
def oldUrlStr : String := "http://155.248.254.206:9000"

/-- Default `NEW_URL` configuration value. -/
def newUrlStr : String := "https://images.nomo.software"

/-- The old URL prefix as a character list. -/
def OLD_URL : List Char := oldUrlStr.data

/-- The new URL prefix as a character list. -/
def NEW_URL : List Char := newUrlStr.data

/-- The `_id` field name: the document identifier. -/
def idKey : String := "_id"

/-- The `updatedAt` field name: the last-modified timestamp added for
the user-uploaded target. -/
def updatedAtKey : String := "updatedAt"

def minioUrlKey : String := "minioUrl"

def s3UrlKey : String := "s3Url"

def minioUrlOracleKey : String := "minioUrlOracle"

def minioUrlThinkerKey : String := "minioUrlThinker"

def imageUrlKey : String := "imageUrl"

def segmentedImageUrlKey : String := "segmentedImageUrl"

/-- Name of an unrelated document field used in concrete instances. -/
def noteKey : String := "note"

/-- Value of the unrelated field in concrete instances. -/
def helloStr : String := "hello"

/-- A string that matches the store regex built from the default old URL
without containing it: the `x` sits where the old URL has a dot. -/
def cexStr : String := "http://155x248.254.206:9000"

/-- An upper-cased variant of the default old URL, containing it only
case-insensitively. -/
def ciStr : String := "HTTP://155.248.254.206:9000/x"

/-- The `url_fields` list of `process_groundtruth_collection`. -/
def groundtruthFields : List String :=
  [minioUrlKey, s3UrlKey, minioUrlOracleKey, minioUrlThinkerKey]

/-- The `url_fields` list of `process_user_clothes_collection`. -/
def userClothesFields : List String :=
  [imageUrlKey, segmentedImageUrlKey]

/-- `URLMigrationService.replace_url_in_dict`: for each field in
`fields`, when the field is present, truthy (a non-empty string) and
string-typed and its value contains `old`, replace every occurrence of
`old` by `new`; the second component is the `modified` flag. -/
def replace_url_in_dict (old new : List Char) (data : Doc) : List String → Doc × Bool
  | [] => (data, false)
  | f :: rest =>
    match lookupField data f with
    | some (Value.vStr s) =>
      if !s.isEmpty && containsSub old s then
        ((replace_url_in_dict old new
            (setField f (Value.vStr (strReplace old new s)) data) rest).1, true)
      else replace_url_in_dict old new data rest
    | _ => replace_url_in_dict old new data rest

/-- Outcome reported by the store for one `update_one` call: the
modified count on success, or a raised `PyMongoError`. -/
inductive UpdOutcome where
  | ok (modifiedCount : Nat)
  | fail
deriving DecidableEq, Repr

/-- Outcome of the candidate query `collection.find(query)` for one
target in one cycle: the list of candidate documents, each paired with
the store's outcome should an update be issued for it, or a raised
`PyMongoError`. -/
inductive QueryOutcome where
  | ok (items : List (Doc × UpdOutcome))
  | fail
deriving DecidableEq, Repr

/-- One `collection.update_one({'_id': doc_id}, {'$set': payload})`
call as issued by the service. -/
structure UpdateCall where
  docId : Option Value
  payload : Doc
deriving DecidableEq, Repr

/-- The body of the per-document loop: read `doc['_id']`, rewrite the
URL fields, and if the document was modified build the update payload by
stripping `_id` and (for the user-uploaded target only) setting the
`updatedAt` timestamp.  Returns the update call to issue, or `none` when
the document was not modified. -/
def processDoc (old new : List Char) (fields : List String) (isUser : Bool) (now : Nat)
    (d : Doc) : Option UpdateCall :=
  let docId := lookupField d idKey
  let r := replace_url_in_dict old new d fields
  if r.2 then
    let payload := popField idKey r.1
    let payload := if isUser then setField updatedAtKey (Value.vTime now) payload else payload
    some ⟨docId, payload⟩
  else none

/-- Result of iterating the candidate cursor: the update calls issued,
the `updated_count` accumulated from updates with positive modified
count, and whether a store error aborted the iteration. -/
structure LoopResult where
  calls : List UpdateCall
  count : Nat
  errored : Bool
deriving DecidableEq, Repr

/-- The `for doc in documents` loop shared by both collection
processors.  A failing update raises, aborting the rest of the
iteration. -/
def processLoop (old new : List Char) (fields : List String) (isUser : Bool) (now : Nat) :
    List (Doc × UpdOutcome) → LoopResult
  | [] => ⟨[], 0, false⟩
  | (d, r) :: rest =>
    match processDoc old new fields isUser now d with
    | none => processLoop old new fields isUser now rest
    | some call =>
      match r with
      | UpdOutcome.fail => ⟨[call], 0, true⟩
      | UpdOutcome.ok m =>
        let res := processLoop old new fields isUser now rest
        ⟨call :: res.calls, (if 0 < m then 1 else 0) + res.count, res.errored⟩

/-- Result of one collection processor: the calls issued, the returned
count, and the increments applied to the statistics record (per-target
counter and error counter). -/
structure TargetResult where
  calls : List UpdateCall
  retCount : Nat
  statsInc : Nat
  errInc : Nat
deriving DecidableEq, Repr

/-- Shared shape of `process_groundtruth_collection` and
`process_user_clothes_collection`: on a query failure, or an update
failure mid-iteration, the `except PyMongoError` handler increments the
error counter and returns 0; otherwise the per-target statistics counter
is incremented by the accumulated count (when positive) and the count is
returned. -/
def processTarget (old new : List Char) (fields : List String) (isUser : Bool) (now : Nat) :
    QueryOutcome → TargetResult
  | QueryOutcome.fail => ⟨[], 0, 0, 1⟩
  | QueryOutcome.ok items =>
    let res := processLoop old new fields isUser now items
    if res.errored then ⟨res.calls, 0, 0, 1⟩
    else ⟨res.calls, res.count, if 0 < res.count then res.count else 0, 0⟩

/-- `URLMigrationService.process_groundtruth_collection`. -/
def process_groundtruth_collection (old new : List Char) (now : Nat)
    (input : QueryOutcome) : TargetResult :=
  processTarget old new groundtruthFields false now input

/-- `URLMigrationService.process_user_clothes_collection`. -/
def process_user_clothes_collection (old new : List Char) (now : Nat)
    (input : QueryOutcome) : TargetResult :=
  processTarget old new userClothesFields true now input

/-- The `self.stats` record. -/
structure Stats where
  groundtruth_updated : Nat
  user_clothes_updated : Nat
  errors : Nat
  last_check : Option Nat
deriving DecidableEq, Repr

/-- The statistics record as initialized in `__init__`. -/
def initStats : Stats := ⟨0, 0, 0, none⟩

/-- Observable result of one `run_check` cycle. -/
structure CycleResult where
  stats : Stats
  gtCount : Nat
  ucCount : Nat
  gtCalls : List UpdateCall
  ucCalls : List UpdateCall
deriving DecidableEq, Repr

/-- `URLMigrationService.run_check`: process the ground-truth target,
then the user-uploaded target, apply the statistics increments, and
record `last_check`. -/
def run_check (old new : List Char) (now : Nat) (gtInput ucInput : QueryOutcome)
    (s : Stats) : CycleResult :=
  let g := process_groundtruth_collection old new now gtInput
  let u := process_user_clothes_collection old new now ucInput
  ⟨⟨s.groundtruth_updated + g.statsInc, s.user_clothes_updated + u.statsInc,
    s.errors + g.errInc + u.errInc, some now⟩,
   g.retCount, u.retCount, g.calls, u.calls⟩

/-- Abstract observable events of `URLMigrationService.run`. -/
inductive Event where
  | connectFailed
  | cycleRan
  | statsSummary
  | connectionClosed
deriving DecidableEq, Repr

/-- Inputs consumed by one polling cycle. -/
structure CycleInput where
  gt : QueryOutcome
  uc : QueryOutcome
  now : Nat
deriving DecidableEq, Repr

/-- `URLMigrationService.run`: if `connect_db` fails, log the error and
return before the polling loop (no summary, no cycles, statistics still
at their initial values).  Otherwise run cycles until the external
interrupt, then print the statistics summary and close the
connection. -/
def runService (connectOk : Bool) (cycles : List CycleInput) : List Event × Stats :=
  if connectOk then
    let final := cycles.foldl
      (fun s c => (run_check OLD_URL NEW_URL c.now c.gt c.uc s).stats) initStats
    (cycles.map (fun _ => Event.cycleRan) ++ [Event.statsSummary, Event.connectionClosed], final)
  else
    ([Event.connectFailed], initStats)

/-! The candidate query.  `process_*_collection` builds
`{'$or': [{field: {'$regex': old_url.replace('/', '\\/'), '$options': 'i'}} ...]}`.
The store's matching of such a regex is modelled below for patterns
consisting of literal characters, backslash escapes, and the `.`
wildcard, with the `i` option as lowercase-folded comparison. -/

/-- A token of the (restricted) regex pattern language. -/
inductive PatTok where
  | lit (c : Char)
  | anyChar
deriving DecidableEq, Repr

/-- The pattern string sent to the store, `self.old_url.replace('/', '\\/')`. -/
def mongoEscaped (old : List Char) : List Char :=
  strReplace ['/'] ['\\', '/'] old

/-- Parse a pattern string into tokens: a backslash escapes the next
character, an unescaped `.` is a wildcard, anything else is a literal. -/
def parsePattern : List Char → List PatTok
  | [] => []
  | c :: rest =>
    if c = '\\' then
      match rest with
      | [] => []
      | c2 :: rest2 => PatTok.lit c2 :: parsePattern rest2
    else if c = '.' then PatTok.anyChar :: parsePattern rest
    else PatTok.lit c :: parsePattern rest

/-- Token produced for one character of an escaped old-URL pattern that
contains no backslash: an unescaped `.` becomes the wildcard, everything
else a literal. -/
def escTok (c : Char) : PatTok :=
  if c = '.' then PatTok.anyChar else PatTok.lit c

/-- Case-insensitive token match (the query passes `'$options': 'i'`). -/
def tokMatches (t : PatTok) (c : Char) : Bool :=
  match t with
  | PatTok.anyChar => true
  | PatTok.lit p => p.toLower == c.toLower

/-- Match the whole token list at the start of the string. -/
def matchHere : List PatTok → List Char → Bool
  | [], _ => true
  | _ :: _, [] => false
  | t :: ts, c :: cs => tokMatches t c && matchHere ts cs

/-- Unanchored regex search: the pattern matches at some position. -/
def regexSearch (pat : List PatTok) : List Char → Bool
  | [] => matchHere pat []
  | c :: rest => matchHere pat (c :: rest) || regexSearch pat rest

/-- Modelled from the spec: the store evaluates the `$or`-of-`$regex`
candidate query (the store itself is an external collaborator).  A
document matches when some listed field holds a string matched by the
case-insensitive regex built from the escaped old URL. -/
def queryMatches (old : List Char) (fields : List String) (d : Doc) : Bool :=
  fields.any (fun f =>
    match lookupField d f with
    | some (Value.vStr s) => regexSearch (parsePattern (mongoEscaped old)) s
    | _ => false)

/-- Case-insensitive substring containment (what the spec says the
candidate query tests). -/
def containsCI (old s : List Char) : Bool :=
  containsSub (old.map Char.toLower) (s.map Char.toLower)

/-- Characters for which the restricted regex model is faithful: they
are either regex-literals or the `.` wildcard, with no other
metacharacter and no backslash. -/
def urlSafeChars (old : List Char) : Bool :=
  old.all (fun c => c.isAlphanum || c == ':' || c == '/' || c == '.' || c == '-' || c == '_')

/-- Applying `{'$set': payload}` to a stored document: each payload
binding overwrites (or adds) the corresponding field. -/
def applySet (stored : Doc) (payload : Doc) : Doc :=
  payload.foldl (fun acc p => setField p.1 p.2 acc) stored

/-- Predicate taken from the spec's words for the targeted update: the
payload "sets only the changed fields" (plus, for the user-uploaded
target, the appended timestamp).  Stated for comparison with the payload
the code actually builds. -/
def payloadSetsOnlyChanged (d : Doc) (fields : List String) (isUser : Bool)
    (call : UpdateCall) : Prop :=
  ∀ k v, lookupField call.payload k = some v →
    (k ∈ fields ∧ lookupField d k ≠ some v) ∨ (isUser = true ∧ k = updatedAtKey)

/-- An item of a candidate list whose update outcome is a success
(no raised store error). -/
def itemOk (p : Doc × UpdOutcome) : Bool :=
  match p.2 with
  | UpdOutcome.ok _ => true
  | UpdOutcome.fail => false

/-- An item that contributes to `updated_count`: its document gets an
update issued and the store reports a positive modified count. -/
def countedItem (old new : List Char) (fields : List String) (isUser : Bool) (now : Nat)
    (p : Doc × UpdOutcome) : Bool :=
  (processDoc old new fields isUser now p.1).isSome &&
    (match p.2 with
     | UpdOutcome.ok m => decide (0 < m)
     | UpdOutcome.fail => false)

/-- A document all of whose listed string fields are free of the old
prefix (an already-migrated document). -/
def alreadyMigrated (old : List Char) (fields : List String) (data : Doc) : Bool :=
  fields.all (fun f =>
    match lookupField data f with
    | some (Value.vStr s) => !containsSub old s
    | _ => true)

/-! Helper lemmas about the document operations. -/

theorem lookupField_setField_self (k : String) (v : Value) (d : Doc) :
    lookupField (setField k v d) k = some v := by
  induction d with
  | nil => simp [setField, lookupField]
  | cons p rest ih =>
    by_cases h : p.1 = k
    · simp [setField, h, lookupField]
    · simp [setField, h, lookupField, ih]

theorem lookupField_setField_ne (k j : String) (v : Value) (d : Doc) (h : j ≠ k) :
    lookupField (setField k v d) j = lookupField d j := by
  have hkj : ¬ k = j := fun he => h he.symm
  induction d with
  | nil => simp [setField, lookupField, hkj]
  | cons p rest ih =>
    by_cases hp : p.1 = k
    · simp [setField, hp, lookupField, hkj]
    · simp only [setField, hp, if_false, lookupField]
      by_cases hj : p.1 = j <;> simp [hj, ih]

theorem lookupField_popField (k j : String) (d : Doc) :
    lookupField (popField k d) j = if j = k then none else lookupField d j := by
  induction d with
  | nil => simp [popField, lookupField]
  | cons p rest ih =>
    by_cases hp : p.1 = k
    · have hdrop : popField k (p :: rest) = popField k rest := by
        simp [popField, List.filter_cons, hp]
      rw [hdrop, ih]
      by_cases hj : j = k
      · simp [hj]
      · have hne : ¬ p.1 = j := fun he => hj (by rw [← he, hp])
        simp [hj, lookupField, hne]
    · have hkeep : popField k (p :: rest) = p :: popField k rest := by
        simp [popField, List.filter_cons, hp]
      rw [hkeep]
      by_cases hj : p.1 = j
      · have hjk : ¬ j = k := fun he => hp (by rw [hj, he])
        simp [lookupField, hj, hjk]
      · simp [lookupField, hj, ih]

theorem lookupField_eq_none_of_not_mem (k : String) (d : Doc)
    (h : ¬ k ∈ d.map Prod.fst) : lookupField d k = none := by
  induction d with
  | nil => simp [lookupField]
  | cons p rest ih =>
    simp only [List.map_cons, List.mem_cons] at h
    push_neg at h
    have hne : ¬ p.1 = k := fun he => h.1 he.symm
    simp [lookupField, hne, ih h.2]

theorem mem_keys_setField (k j : String) (v : Value) (d : Doc)
    (h : j ∈ (setField k v d).map Prod.fst) : j ∈ d.map Prod.fst ∨ j = k := by
  induction d with
  | nil => simp [setField] at h; exact Or.inr h
  | cons p rest ih =>
    by_cases hp : p.1 = k
    · simp only [setField, hp, if_true, List.map_cons, List.mem_cons] at h
      rcases h with h | h
      · exact Or.inr h
      · exact Or.inl (by simp [h])
    · simp only [setField, hp, if_false, List.map_cons, List.mem_cons] at h
      rcases h with h | h
      · exact Or.inl (by simp [h])
      · rcases ih h with h' | h'
        · exact Or.inl (by simp [h'])
        · exact Or.inr h'

theorem keys_setField_of_present (k : String) (v w : Value) (d : Doc)
    (h : lookupField d k = some w) : (setField k v d).map Prod.fst = d.map Prod.fst := by
  induction d with
  | nil => simp [lookupField] at h
  | cons p rest ih =>
    by_cases hp : p.1 = k
    · simp [setField, hp]
    · simp only [lookupField, hp, if_false] at h
      simp [setField, hp, ih h]

theorem nodup_keys_setField (k : String) (v : Value) (d : Doc)
    (h : (d.map Prod.fst).Nodup) : ((setField k v d).map Prod.fst).Nodup := by
  induction d with
  | nil => simp [setField]
  | cons p rest ih =>
    simp only [List.map_cons, List.nodup_cons] at h
    by_cases hp : p.1 = k
    · simp only [setField, hp, if_true, List.map_cons, List.nodup_cons]
      exact ⟨hp ▸ h.1, h.2⟩
    · simp only [setField, hp, if_false, List.map_cons, List.nodup_cons]
      refine ⟨fun hm => ?_, ih h.2⟩
      rcases mem_keys_setField k p.1 v rest hm with h' | h'
      · exact h.1 h'
      · exact hp h'

theorem keys_popField (k : String) (d : Doc) :
    (popField k d).map Prod.fst = (d.map Prod.fst).filter (fun x => !(x == k)) := by
  induction d with
  | nil => simp [popField]
  | cons p rest ih =>
    simp only [popField, List.filter_cons, List.map_cons] at ih ⊢
    cases hb : (p.1 == k) <;> simp [hb, ih]

theorem nodup_keys_popField (k : String) (d : Doc)
    (h : (d.map Prod.fst).Nodup) : ((popField k d).map Prod.fst).Nodup := by
  rw [keys_popField]; exact h.filter _

/-! Helper lemmas about the Python string primitives. -/

theorem isPrefixOf_exists_append (p : List Char) :
    ∀ s, p.isPrefixOf s = true ↔ ∃ t, s = p ++ t := by
  induction p with
  | nil => intro s; simp [List.isPrefixOf]
  | cons c cs ih =>
    intro s
    cases s with
    | nil => simp [List.isPrefixOf]
    | cons d ds =>
      simp only [List.isPrefixOf, Bool.and_eq_true, beq_iff_eq, ih ds]
      constructor
      · rintro ⟨rfl, t, rfl⟩; exact ⟨t, rfl⟩
      · rintro ⟨t, ht⟩
        injection ht with h1 h2
        exact ⟨h1.symm, t, h2⟩

theorem containsSub_exists_append (pat : List Char) :
    ∀ s, containsSub pat s = true ↔ ∃ a b, s = a ++ pat ++ b := by
  intro s
  induction s with
  | nil =>
    simp only [containsSub, List.isEmpty_iff]
    constructor
    · rintro rfl; exact ⟨[], [], rfl⟩
    · rintro ⟨a, b, h⟩
      rcases List.append_eq_nil.1 h.symm with ⟨h1, h2⟩
      exact (List.append_eq_nil.1 h1).2
  | cons c rest ih =>
    simp only [containsSub, Bool.or_eq_true, isPrefixOf_exists_append, ih]
    constructor
    · rintro (⟨t, ht⟩ | ⟨a, b, hab⟩)
      · exact ⟨[], t, by simp [ht]⟩
      · exact ⟨c :: a, b, by simp [hab]⟩
    · rintro ⟨a, b, hab⟩
      cases a with
      | nil => exact Or.inl ⟨b, by simpa using hab⟩
      | cons a0 as =>
        injection hab with h1 h2
        exact Or.inr ⟨as, b, h2⟩

theorem containsSub_ne_nil_false (pat : List Char) (hp : pat ≠ []) :
    containsSub pat [] = false := by
  simp [containsSub, List.isEmpty_iff, hp]

theorem containsSub_nonempty (pat s : List Char) (hp : pat ≠ [])
    (h : containsSub pat s = true) : s.isEmpty = false := by
  cases s with
  | nil => rw [containsSub_ne_nil_false pat hp] at h; exact absurd h (by simp)
  | cons c rest => simp

theorem strReplaceAux_fuel (pat rep : List Char) :
    ∀ f₁ f₂ s, s.length ≤ f₁ → s.length ≤ f₂ →
      strReplaceAux pat rep f₁ s = strReplaceAux pat rep f₂ s := by
  intro f₁
  induction f₁ with
  | zero =>
    intro f₂ s h1 _
    have : s = [] := List.length_eq_zero.1 (Nat.le_zero.1 h1)
    subst this; cases f₂ <;> simp [strReplaceAux]
  | succ f ih =>
    intro f₂ s h1 h2
    cases s with
    | nil => cases f₂ <;> simp [strReplaceAux]
    | cons c rest =>
      cases f₂ with
      | zero => exact absurd h2 (by simp)
      | succ f' =>
        simp only [strReplaceAux]
        simp only [List.length_cons, Nat.succ_le_succ_iff] at h1 h2
        by_cases hpre : pat.isPrefixOf (c :: rest) = true
        · rw [if_pos hpre, if_pos hpre,
            ih f' (rest.drop (pat.length - 1))
              (le_trans (by simp only [List.length_drop]; omega) h1)
              (le_trans (by simp only [List.length_drop]; omega) h2)]
        · rw [if_neg hpre, if_neg hpre, ih f' rest h1 h2]

theorem isEmpty_false_of_ne_nil (pat : List Char) (hp : pat ≠ []) :
    pat.isEmpty = false := by
  cases pat with
  | nil => exact absurd rfl hp
  | cons a as => rfl

theorem strReplace_nil (pat rep : List Char) (hp : pat ≠ []) :
    strReplace pat rep [] = [] := by
  simp [strReplace, isEmpty_false_of_ne_nil pat hp, strReplaceAux]

theorem strReplace_cons (pat rep : List Char) (hp : pat ≠ []) (c : Char) (rest : List Char) :
    strReplace pat rep (c :: rest) =
      if pat.isPrefixOf (c :: rest) then
        rep ++ strReplace pat rep (rest.drop (pat.length - 1))
      else c :: strReplace pat rep rest := by
  simp only [strReplace, isEmpty_false_of_ne_nil pat hp, Bool.false_eq_true, if_false,
    List.length_cons]
  simp only [strReplaceAux]
  by_cases hpre : pat.isPrefixOf (c :: rest) = true
  · rw [if_pos hpre, if_pos hpre,
      strReplaceAux_fuel pat rep rest.length (rest.drop (pat.length - 1)).length
        (rest.drop (pat.length - 1)) (by simp only [List.length_drop]; omega) (le_refl _)]
  · rw [if_neg hpre, if_neg hpre]

theorem strSplitAux_fuel (pat : List Char) :
    ∀ f₁ f₂ s, s.length ≤ f₁ → s.length ≤ f₂ →
      strSplitAux pat f₁ s = strSplitAux pat f₂ s := by
  intro f₁
  induction f₁ with
  | zero =>
    intro f₂ s h1 _
    have : s = [] := List.length_eq_zero.1 (Nat.le_zero.1 h1)
    subst this; cases f₂ <;> simp [strSplitAux]
  | succ f ih =>
    intro f₂ s h1 h2
    cases s with
    | nil => cases f₂ <;> simp [strSplitAux]
    | cons c rest =>
      cases f₂ with
      | zero => exact absurd h2 (by simp)
      | succ f' =>
        simp only [strSplitAux]
        simp only [List.length_cons, Nat.succ_le_succ_iff] at h1 h2
        by_cases hpre : pat.isPrefixOf (c :: rest) = true
        · rw [if_pos hpre, if_pos hpre,
            ih f' (rest.drop (pat.length - 1))
              (le_trans (by simp only [List.length_drop]; omega) h1)
              (le_trans (by simp only [List.length_drop]; omega) h2)]
        · rw [if_neg hpre, if_neg hpre, ih f' rest h1 h2]

theorem strSplit_nil (pat : List Char) : strSplit pat [] = [[]] := by
  simp [strSplit, strSplitAux]

theorem strSplit_cons (pat : List Char) (c : Char) (rest : List Char) :
    strSplit pat (c :: rest) =
      if pat.isPrefixOf (c :: rest) then [] :: strSplit pat (rest.drop (pat.length - 1))
      else
        match strSplit pat rest with
        | [] => [[c]]
        | h :: t => (c :: h) :: t := by
  simp only [strSplit, List.length_cons, strSplitAux]
  by_cases hpre : pat.isPrefixOf (c :: rest) = true
  · rw [if_pos hpre, if_pos hpre,
      strSplitAux_fuel pat rest.length (rest.drop (pat.length - 1)).length
        (rest.drop (pat.length - 1)) (by simp only [List.length_drop]; omega) (le_refl _)]
  · rw [if_neg hpre, if_neg hpre,
      strSplitAux_fuel pat rest.length rest.length rest (le_refl _) (le_refl _)]

theorem strSplit_ne_nil (pat s : List Char) : strSplit pat s ≠ [] := by
  cases s with
  | nil => rw [strSplit_nil]; simp
  | cons c rest =>
    rw [strSplit_cons]
    by_cases hpre : pat.isPrefixOf (c :: rest) = true
    · simp [hpre]
    · simp only [hpre, if_neg, Bool.false_eq_true, if_false]
      cases strSplit pat rest <;> simp

theorem strReplace_eq_join_split (pat rep : List Char) (hp : pat ≠ []) :
    ∀ n s, s.length ≤ n → strReplace pat rep s = strJoin rep (strSplit pat s) := by
  intro n
  induction n with
  | zero =>
    intro s h
    have : s = [] := List.length_eq_zero.1 (Nat.le_zero.1 h)
    subst this
    rw [strReplace_nil pat rep hp, strSplit_nil]
    simp [strJoin]
  | succ n ih =>
    intro s h
    cases s with
    | nil =>
      rw [strReplace_nil pat rep hp, strSplit_nil]; simp [strJoin]
    | cons c rest =>
      simp only [List.length_cons, Nat.succ_le_succ_iff] at h
      rw [strReplace_cons pat rep hp, strSplit_cons]
      by_cases hpre : pat.isPrefixOf (c :: rest) = true
      · rw [if_pos hpre, if_pos hpre]
        have hlen : (rest.drop (pat.length - 1)).length ≤ n :=
          le_trans (by simp only [List.length_drop]; omega) h
        rw [ih _ hlen]
        rcases hsp : strSplit pat (rest.drop (pat.length - 1)) with _ | ⟨h0, t0⟩
        · exact absurd hsp (strSplit_ne_nil pat _)
        · simp [strJoin]
      · rw [if_neg hpre, if_neg hpre, ih rest h]
        rcases hsp : strSplit pat rest with _ | ⟨h0, t0⟩
        · exact absurd hsp (strSplit_ne_nil pat _)
        · cases t0 with
          | nil => simp [strJoin]
          | cons y t1 => simp [strJoin]

/-! Characterization of `replace_url_in_dict`. -/

theorem replace_lookup_not_mem (old new : List Char) :
    ∀ (fields : List String) (data : Doc) (k : String), ¬ k ∈ fields →
      lookupField (replace_url_in_dict old new data fields).1 k = lookupField data k := by
  intro fields
  induction fields with
  | nil => intro data k _; simp [replace_url_in_dict]
  | cons f rest ih =>
    intro data k hk
    have hkf : k ≠ f := fun he => hk (he ▸ List.mem_cons_self f rest)
    have hkrest : ¬ k ∈ rest := fun he => hk (List.mem_cons_of_mem f he)
    cases hl : lookupField data f with
    | none => simp only [replace_url_in_dict, hl]; exact ih data k hkrest
    | some v =>
      cases v with
      | vStr s =>
        simp only [replace_url_in_dict, hl]
        by_cases hc : (!s.isEmpty && containsSub old s) = true
        · rw [if_pos hc]
          rw [ih (setField f (Value.vStr (strReplace old new s)) data) k hkrest,
              lookupField_setField_ne f k _ data hkf]
        · rw [if_neg hc]; exact ih data k hkrest
      | vNull => simp only [replace_url_in_dict, hl]; exact ih data k hkrest
      | vTime t => simp only [replace_url_in_dict, hl]; exact ih data k hkrest
      | vOther n => simp only [replace_url_in_dict, hl]; exact ih data k hkrest

theorem containsSub_isEmpty_true (old s : List Char) (hold : old ≠ [])
    (hc : containsSub old s = true) : (!s.isEmpty && containsSub old s) = true := by
  rw [containsSub_nonempty old s hold hc, hc]; rfl

theorem replace_lookup_mem (old new : List Char) (hold : old ≠ []) :
    ∀ (fields : List String) (data : Doc) (k : String), fields.Nodup → k ∈ fields →
      lookupField (replace_url_in_dict old new data fields).1 k =
        match lookupField data k with
        | some (Value.vStr s) =>
          if containsSub old s then some (Value.vStr (strReplace old new s))
          else some (Value.vStr s)
        | v => v := by
  intro fields
  induction fields with
  | nil => intro data k _ hk; exact absurd hk (List.not_mem_nil k)
  | cons f rest ih =>
    intro data k hnd hk
    have hfrest : ¬ f ∈ rest := (List.nodup_cons.1 hnd).1
    have hndrest : rest.Nodup := (List.nodup_cons.1 hnd).2
    by_cases hkf : k = f
    · subst hkf
      cases hl : lookupField data k with
      | none =>
        simp only [replace_url_in_dict, hl]
        rw [replace_lookup_not_mem old new rest data k hfrest, hl]
      | some v =>
        cases v with
        | vStr s =>
          simp only [replace_url_in_dict, hl]
          by_cases hc : containsSub old s = true
          · rw [if_pos (containsSub_isEmpty_true old s hold hc)]
            have := replace_lookup_not_mem old new rest
              (setField k (Value.vStr (strReplace old new s)) data) k hfrest
            simp only [this, lookupField_setField_self, hc, if_pos]
          · have hcc : (!s.isEmpty && containsSub old s) = false := by
              cases h2 : containsSub old s with
              | true => exact absurd h2 hc
              | false => simp [h2]
            rw [hcc]
            simp only [Bool.false_eq_true, if_false]
            rw [replace_lookup_not_mem old new rest data k hfrest, hl]
            simp [hc]
        | vNull =>
          simp only [replace_url_in_dict, hl]
          rw [replace_lookup_not_mem old new rest data k hfrest, hl]
        | vTime t =>
          simp only [replace_url_in_dict, hl]
          rw [replace_lookup_not_mem old new rest data k hfrest, hl]
        | vOther n =>
          simp only [replace_url_in_dict, hl]
          rw [replace_lookup_not_mem old new rest data k hfrest, hl]
    · have hkrest : k ∈ rest := (List.mem_cons.1 hk).resolve_left hkf
      cases hl : lookupField data f with
      | none => simp only [replace_url_in_dict, hl]; exact ih data k hndrest hkrest
      | some v =>
        cases v with
        | vStr s =>
          simp only [replace_url_in_dict, hl]
          by_cases hc : (!s.isEmpty && containsSub old s) = true
          · rw [if_pos hc]
            have hset := lookupField_setField_ne f k (Value.vStr (strReplace old new s)) data hkf
            rw [ih (setField f (Value.vStr (strReplace old new s)) data) k hndrest hkrest, hset]
          · rw [if_neg hc]; exact ih data k hndrest hkrest
        | vNull => simp only [replace_url_in_dict, hl]; exact ih data k hndrest hkrest
        | vTime t => simp only [replace_url_in_dict, hl]; exact ih data k hndrest hkrest
        | vOther n => simp only [replace_url_in_dict, hl]; exact ih data k hndrest hkrest

theorem replace_flag (old new : List Char) (hold : old ≠ []) :
    ∀ (fields : List String) (data : Doc),
      ((replace_url_in_dict old new data fields).2 = true ↔
        ∃ f ∈ fields, ∃ s, lookupField data f = some (Value.vStr s) ∧ containsSub old s = true) := by
  intro fields
  induction fields with
  | nil => intro data; simp [replace_url_in_dict]
  | cons f rest ih =>
    intro data
    cases hl : lookupField data f with
    | none =>
      simp only [replace_url_in_dict, hl, ih data]
      constructor
      · rintro ⟨g, hg, s, hgs, hcs⟩; exact ⟨g, List.mem_cons_of_mem f hg, s, hgs, hcs⟩
      · rintro ⟨g, hg, s, hgs, hcs⟩
        rcases List.mem_cons.1 hg with rfl | hg'
        · rw [hl] at hgs; exact absurd hgs (by simp)
        · exact ⟨g, hg', s, hgs, hcs⟩
    | some v =>
      cases v with
      | vStr s =>
        by_cases hc : (!s.isEmpty && containsSub old s) = true
        · simp only [replace_url_in_dict, hl, if_pos hc]
          have hcs : containsSub old s = true := by
            have h2 := hc
            simp only [Bool.and_eq_true] at h2
            exact h2.2
          simp only [true_iff]
          exact ⟨f, List.mem_cons_self f rest, s, hl, hcs⟩
        · simp only [replace_url_in_dict, hl, if_neg hc, ih data]
          have hcs : containsSub old s = false := by
            by_cases h2 : containsSub old s = true
            · exact absurd (containsSub_isEmpty_true old s hold h2) hc
            · exact Bool.eq_false_iff.2 h2
          constructor
          · rintro ⟨g, hg, s', hgs, hcs'⟩; exact ⟨g, List.mem_cons_of_mem f hg, s', hgs, hcs'⟩
          · rintro ⟨g, hg, s', hgs, hcs'⟩
            rcases List.mem_cons.1 hg with rfl | hg'
            · rw [hl] at hgs
              injection hgs with hv
              injection hv with hs
              rw [← hs] at hcs'
              rw [hcs] at hcs'
              exact absurd hcs' (by simp)
            · exact ⟨g, hg', s', hgs, hcs'⟩
      | vNull =>
        simp only [replace_url_in_dict, hl, ih data]
        constructor
        · rintro ⟨g, hg, s, hgs, hcs⟩; exact ⟨g, List.mem_cons_of_mem f hg, s, hgs, hcs⟩
        · rintro ⟨g, hg, s, hgs, hcs⟩
          rcases List.mem_cons.1 hg with rfl | hg'
          · rw [hl] at hgs; exact absurd hgs (by simp)
          · exact ⟨g, hg', s, hgs, hcs⟩
      | vTime t =>
        simp only [replace_url_in_dict, hl, ih data]
        constructor
        · rintro ⟨g, hg, s, hgs, hcs⟩; exact ⟨g, List.mem_cons_of_mem f hg, s, hgs, hcs⟩
        · rintro ⟨g, hg, s, hgs, hcs⟩
          rcases List.mem_cons.1 hg with rfl | hg'
          · rw [hl] at hgs; exact absurd hgs (by simp)
          · exact ⟨g, hg', s, hgs, hcs⟩
      | vOther n =>
        simp only [replace_url_in_dict, hl, ih data]
        constructor
        · rintro ⟨g, hg, s, hgs, hcs⟩; exact ⟨g, List.mem_cons_of_mem f hg, s, hgs, hcs⟩
        · rintro ⟨g, hg, s, hgs, hcs⟩
          rcases List.mem_cons.1 hg with rfl | hg'
          · rw [hl] at hgs; exact absurd hgs (by simp)
          · exact ⟨g, hg', s, hgs, hcs⟩

theorem replace_unchanged_of_none (old new : List Char) :
    ∀ (fields : List String) (data : Doc),
      alreadyMigrated old fields data = true →
      replace_url_in_dict old new data fields = (data, false) := by
  intro fields
  induction fields with
  | nil => intro data _; rfl
  | cons f rest ih =>
    intro data hmig
    simp only [alreadyMigrated, List.all_cons, Bool.and_eq_true] at hmig
    have hrest : alreadyMigrated old rest data = true := hmig.2
    cases hl : lookupField data f with
    | none => simp only [replace_url_in_dict, hl]; exact ih data hrest
    | some v =>
      cases v with
      | vStr s =>
        have hc : containsSub old s = false := by
          have := hmig.1
          rw [hl] at this
          simpa using this
        have hcc : (!s.isEmpty && containsSub old s) = false := by simp [hc]
        simp only [replace_url_in_dict, hl, hcc, Bool.false_eq_true, if_false]
        exact ih data hrest
      | vNull => simp only [replace_url_in_dict, hl]; exact ih data hrest
      | vTime t => simp only [replace_url_in_dict, hl]; exact ih data hrest
      | vOther n => simp only [replace_url_in_dict, hl]; exact ih data hrest

theorem keys_replace (old new : List Char) :
    ∀ (fields : List String) (data : Doc),
      ((replace_url_in_dict old new data fields).1).map Prod.fst = data.map Prod.fst := by
  intro fields
  induction fields with
  | nil => intro data; rfl
  | cons f rest ih =>
    intro data
    cases hl : lookupField data f with
    | none => simp only [replace_url_in_dict, hl]; exact ih data
    | some v =>
      cases v with
      | vStr s =>
        by_cases hc : (!s.isEmpty && containsSub old s) = true
        · simp only [replace_url_in_dict, hl, if_pos hc]
          rw [ih (setField f (Value.vStr (strReplace old new s)) data),
              keys_setField_of_present f _ (Value.vStr s) data hl]
        · simp only [replace_url_in_dict, hl, if_neg hc]; exact ih data
      | vNull => simp only [replace_url_in_dict, hl]; exact ih data
      | vTime t => simp only [replace_url_in_dict, hl]; exact ih data
      | vOther n => simp only [replace_url_in_dict, hl]; exact ih data

/-! Lemmas about the per-target processing loop. -/

theorem processLoop_calls_sound (old new : List Char) (fields : List String)
    (isUser : Bool) (now : Nat) :
    ∀ (items : List (Doc × UpdOutcome)) (c : UpdateCall),
      c ∈ (processLoop old new fields isUser now items).calls →
      ∃ p, p ∈ items ∧ processDoc old new fields isUser now p.1 = some c := by
  intro items
  induction items with
  | nil => intro c hc; simp [processLoop] at hc
  | cons q rest ih =>
    intro c hc
    rcases q with ⟨d, r⟩
    cases hpd : processDoc old new fields isUser now d with
    | none =>
      simp only [processLoop, hpd] at hc
      rcases ih c hc with ⟨p, hp, hpc⟩
      exact ⟨p, List.mem_cons_of_mem _ hp, hpc⟩
    | some call =>
      cases r with
      | fail =>
        simp only [processLoop, hpd, List.mem_singleton] at hc
        exact ⟨(d, UpdOutcome.fail), List.mem_cons_self _ _, by rw [hpd, hc]⟩
      | ok m =>
        simp only [processLoop, hpd, List.mem_cons] at hc
        rcases hc with rfl | hc
        · exact ⟨(d, UpdOutcome.ok m), List.mem_cons_self _ _, hpd⟩
        · rcases ih c hc with ⟨p, hp, hpc⟩
          exact ⟨p, List.mem_cons_of_mem _ hp, hpc⟩

theorem processLoop_append (old new : List Char) (fields : List String)
    (isUser : Bool) (now : Nat) :
    ∀ (pre rest : List (Doc × UpdOutcome)), pre.all itemOk = true →
      processLoop old new fields isUser now (pre ++ rest) =
        ⟨(processLoop old new fields isUser now pre).calls ++
            (processLoop old new fields isUser now rest).calls,
          (processLoop old new fields isUser now pre).count +
            (processLoop old new fields isUser now rest).count,
          (processLoop old new fields isUser now rest).errored⟩ := by
  intro pre
  induction pre with
  | nil =>
    intro rest _
    simp only [List.nil_append, processLoop, List.nil_append, Nat.zero_add]
  | cons q pre' ih =>
    intro rest hok
    simp only [List.all_cons, Bool.and_eq_true] at hok
    rcases q with ⟨d, r⟩
    cases r with
    | fail => exact absurd hok.1 (by simp [itemOk])
    | ok m =>
      cases hpd : processDoc old new fields isUser now d with
      | none =>
        simp only [List.cons_append, processLoop, hpd, List.append_eq]
        exact ih rest hok.2
      | some call =>
        simp only [List.cons_append, processLoop, hpd, List.append_eq]
        rw [ih rest hok.2]
        simp [Nat.add_assoc]

theorem processLoop_fail_cons (old new : List Char) (fields : List String)
    (isUser : Bool) (now : Nat) (d : Doc) (post : List (Doc × UpdOutcome))
    (call : UpdateCall) (hpd : processDoc old new fields isUser now d = some call) :
    processLoop old new fields isUser now ((d, UpdOutcome.fail) :: post) =
      ⟨[call], 0, true⟩ := by
  simp [processLoop, hpd]

theorem processLoop_all_ok (old new : List Char) (fields : List String)
    (isUser : Bool) (now : Nat) :
    ∀ (items : List (Doc × UpdOutcome)), items.all itemOk = true →
      (processLoop old new fields isUser now items).errored = false ∧
      (processLoop old new fields isUser now items).count =
        (items.filter (countedItem old new fields isUser now)).length := by
  intro items
  induction items with
  | nil => intro _; simp [processLoop]
  | cons q rest ih =>
    intro hok
    simp only [List.all_cons, Bool.and_eq_true] at hok
    rcases q with ⟨d, r⟩
    cases r with
    | fail => exact absurd hok.1 (by simp [itemOk])
    | ok m =>
      rcases ih hok.2 with ⟨iherr, ihcount⟩
      cases hpd : processDoc old new fields isUser now d with
      | none =>
        have hci : countedItem old new fields isUser now (d, UpdOutcome.ok m) = false := by
          simp [countedItem, hpd]
        simp only [processLoop, hpd, List.filter_cons, hci, Bool.false_eq_true, if_false]
        exact ⟨iherr, ihcount⟩
      | some call =>
        have hloop : processLoop old new fields isUser now ((d, UpdOutcome.ok m) :: rest) =
            ⟨call :: (processLoop old new fields isUser now rest).calls,
             (if 0 < m then 1 else 0) + (processLoop old new fields isUser now rest).count,
             (processLoop old new fields isUser now rest).errored⟩ := by
          simp [processLoop, hpd]
        have hfil : (((d, UpdOutcome.ok m) :: rest).filter
            (countedItem old new fields isUser now)).length =
            (if 0 < m then 1 else 0) +
              (rest.filter (countedItem old new fields isUser now)).length := by
          by_cases hm : 0 < m
          · have hd : countedItem old new fields isUser now (d, UpdOutcome.ok m) = true := by
              simp [countedItem, hpd, hm]
            rw [List.filter_cons, hd]
            simp [hm, Nat.add_comm]
          · have hd : countedItem old new fields isUser now (d, UpdOutcome.ok m) = false := by
              simp [countedItem, hpd, hm]
            rw [List.filter_cons, hd]
            simp [hm]
        rw [hloop, hfil]
        exact ⟨iherr, by rw [ihcount]⟩

theorem applySet_lookup :
    ∀ (payload stored : Doc) (k : String), (payload.map Prod.fst).Nodup →
      lookupField (applySet stored payload) k =
        match lookupField payload k with
        | some v => some v
        | none => lookupField stored k := by
  intro payload
  induction payload with
  | nil => intro stored k _; simp [applySet, lookupField]
  | cons q rest ih =>
    intro stored k hnd
    simp only [List.map_cons, List.nodup_cons] at hnd
    have happ : applySet stored (q :: rest) = applySet (setField q.1 q.2 stored) rest := by
      simp [applySet]
    rw [happ, ih (setField q.1 q.2 stored) k hnd.2]
    by_cases hk : q.1 = k
    · subst hk
      have : lookupField rest q.1 = none :=
        lookupField_eq_none_of_not_mem q.1 rest hnd.1
      rw [this, lookupField_setField_self]
      simp [lookupField]
    · have : lookupField (setField q.1 q.2 stored) k = lookupField stored k :=
        lookupField_setField_ne q.1 k q.2 stored (fun he => hk he.symm)
      rw [this]
      simp [lookupField, hk]

/-! Lemmas about the candidate-query regex model. -/

theorem mongoEscaped_nil : mongoEscaped [] = [] :=
  strReplace_nil _ _ (by simp)

theorem mongoEscaped_cons (c : Char) (r : List Char) :
    mongoEscaped (c :: r) =
      if c = '/' then '\\' :: '/' :: mongoEscaped r else c :: mongoEscaped r := by
  unfold mongoEscaped
  rw [strReplace_cons _ _ (by simp) c r]
  by_cases hc : c = '/'
  · subst hc
    have hpre : (['/'] : List Char).isPrefixOf ('/' :: r) = true := by
      simp [List.isPrefixOf]
    rw [if_pos hpre, if_pos rfl]
    simp
  · have hpre : (['/'] : List Char).isPrefixOf (c :: r) = false := by
      simp [List.isPrefixOf]
      exact fun he => hc he.symm
    rw [hpre]
    simp [hc]

theorem parsePattern_cons (c : Char) (rest : List Char) :
    parsePattern (c :: rest) =
      if c = '\\' then
        (match rest with
         | [] => []
         | c2 :: rest2 => PatTok.lit c2 :: parsePattern rest2)
      else if c = '.' then PatTok.anyChar :: parsePattern rest
      else PatTok.lit c :: parsePattern rest := by
  rw [parsePattern.eq_def]

theorem parsePattern_mongoEscaped :
    ∀ (old : List Char), (∀ c ∈ old, c ≠ '\\') →
      parsePattern (mongoEscaped old) = old.map escTok := by
  intro old
  induction old with
  | nil => intro _; rw [mongoEscaped_nil]; rfl
  | cons c r ih =>
    intro hnb
    have hcb : c ≠ '\\' := hnb c (List.mem_cons_self c r)
    have hr : ∀ c' ∈ r, c' ≠ '\\' := fun c' hc' => hnb c' (List.mem_cons_of_mem c hc')
    rw [mongoEscaped_cons]
    by_cases hc : c = '/'
    · subst hc
      rw [if_pos rfl]
      have h1 : parsePattern ('\\' :: '/' :: mongoEscaped r) =
          PatTok.lit '/' :: parsePattern (mongoEscaped r) := rfl
      rw [h1, ih hr]
      rfl
    · rw [if_neg hc, parsePattern_cons, if_neg hcb]
      by_cases hd : c = '.'
      · subst hd
        rw [if_pos rfl, ih hr]
        rfl
      · rw [if_neg hd, ih hr]
        simp [escTok, hd]

theorem matchHere_of_toLower :
    ∀ (old t : List Char), t.map Char.toLower = old.map Char.toLower →
      matchHere (old.map escTok) t = true := by
  intro old
  induction old with
  | nil => intro t _; simp [matchHere]
  | cons c cs ih =>
    intro t ht
    cases t with
    | nil => simp at ht
    | cons d ds =>
      simp only [List.map_cons] at ht
      injection ht with h1 h2
      simp only [List.map_cons, matchHere, Bool.and_eq_true]
      refine ⟨?_, ih ds h2⟩
      by_cases hd : c = '.'
      · simp [escTok, hd, tokMatches]
      · simp only [escTok, hd, if_neg, Bool.false_eq_true, if_false, tokMatches]
        exact beq_iff_eq.2 h1.symm

theorem matchHere_append (pat : List PatTok) :
    ∀ (t b : List Char), matchHere pat t = true → matchHere pat (t ++ b) = true := by
  induction pat with
  | nil => intro t b _; simp [matchHere]
  | cons p ps ih =>
    intro t b h
    cases t with
    | nil => simp [matchHere] at h
    | cons c cs =>
      simp only [matchHere, Bool.and_eq_true] at h
      simp only [List.cons_append, matchHere, Bool.and_eq_true]
      exact ⟨h.1, ih cs b h.2⟩

theorem regexSearch_of_matchHere (pat : List PatTok) (s : List Char)
    (h : matchHere pat s = true) : regexSearch pat s = true := by
  cases s with
  | nil => simpa [regexSearch] using h
  | cons c cs => simp [regexSearch, h]

theorem regexSearch_append_left (pat : List PatTok) :
    ∀ (a s : List Char), regexSearch pat s = true → regexSearch pat (a ++ s) = true := by
  intro a
  induction a with
  | nil => intro s h; simpa using h
  | cons c cs ih =>
    intro s h
    simp only [List.cons_append, regexSearch, Bool.or_eq_true]
    exact Or.inr (ih s h)

theorem map_eq_append_split {α β : Type} (f : α → β) :
    ∀ (s₁ : List β) (l : List α) (s₂ : List β), l.map f = s₁ ++ s₂ →
      ∃ l₁ l₂, l = l₁ ++ l₂ ∧ l₁.map f = s₁ ∧ l₂.map f = s₂ := by
  intro s₁
  induction s₁ with
  | nil => intro l s₂ h; exact ⟨[], l, rfl, rfl, by simpa using h⟩
  | cons b bs ih =>
    intro l s₂ h
    cases l with
    | nil => simp at h
    | cons a as =>
      simp only [List.map_cons, List.cons_append] at h
      injection h with h1 h2
      rcases ih as s₂ h2 with ⟨l₁, l₂, rfl, hm1, hm2⟩
      exact ⟨a :: l₁, l₂, rfl, by simp [h1, hm1], hm2⟩

theorem no_backslash_of_urlSafe (old : List Char) (hsafe : urlSafeChars old = true) :
    ∀ c ∈ old, c ≠ '\\' := by
  intro c hc he
  have hall := List.all_eq_true.1 hsafe c hc
  subst he
  exact absurd hall (by decide)

theorem regex_sound_str (old s : List Char) (hsafe : urlSafeChars old = true)
    (hci : containsCI old s = true) :
    regexSearch (parsePattern (mongoEscaped old)) s = true := by
  rw [parsePattern_mongoEscaped old (no_backslash_of_urlSafe old hsafe)]
  rcases (containsSub_exists_append _ _).1 hci with ⟨a, b, hab⟩
  rcases map_eq_append_split Char.toLower (a ++ old.map Char.toLower) s b
      (by rw [hab]) with ⟨u, v, rfl, hu, hv⟩
  rcases map_eq_append_split Char.toLower a u (old.map Char.toLower) hu
      with ⟨u₁, u₂, rfl, hu₁, hu₂⟩
  have hm : matchHere (old.map escTok) u₂ = true := matchHere_of_toLower old u₂ hu₂
  have hm2 : matchHere (old.map escTok) (u₂ ++ v) = true := matchHere_append _ u₂ v hm
  have hs : regexSearch (old.map escTok) (u₂ ++ v) = true :=
    regexSearch_of_matchHere _ _ hm2
  have := regexSearch_append_left (old.map escTok) u₁ (u₂ ++ v) hs
  simpa [List.append_assoc] using this

theorem processTarget_ok_calls (old new : List Char) (fields : List String)
    (isUser : Bool) (now : Nat) (items : List (Doc × UpdOutcome)) :
    (processTarget old new fields isUser now (QueryOutcome.ok items)).calls =
      (processLoop old new fields isUser now items).calls := by
  simp only [processTarget]
  by_cases h : (processLoop old new fields isUser now items).errored = true
  · rw [if_pos h]
  · rw [if_neg h]

/-! Claim theorems. -/

/-- C1: for every document and duplicate-free ordered field list, and a
non-empty configured old prefix, `replace_url_in_dict` replaces, in each
listed field that is present, non-null and string-typed and whose value
contains the old prefix, every occurrence of the old prefix with the new
prefix (the resulting value is the `new`-join of the `old`-split of the
original, i.e. all occurrences are replaced, not just the first), leaves
every other field unchanged, and returns a changed flag that is true
exactly when at least one such replacement applied. -/
theorem replace_url_in_dict_spec (old new : List Char) (data : Doc) (fields : List String)
    (hold : old ≠ []) (hnd : fields.Nodup) :
    (∀ k, lookupField (replace_url_in_dict old new data fields).1 k =
        match lookupField data k with
        | some (Value.vStr s) =>
          if k ∈ fields ∧ containsSub old s = true then
            some (Value.vStr (strReplace old new s))
          else some (Value.vStr s)
        | v => v)
    ∧ ((replace_url_in_dict old new data fields).2 = true ↔
        ∃ f ∈ fields, ∃ s, lookupField data f = some (Value.vStr s) ∧
          containsSub old s = true)
    ∧ (∀ s, strReplace old new s = strJoin new (strSplit old s)) := by
  refine ⟨?_, replace_flag old new hold fields data,
    fun s => strReplace_eq_join_split old new hold s.length s (le_refl _)⟩
  intro k
  by_cases hk : k ∈ fields
  · rw [replace_lookup_mem old new hold fields data k hnd hk]
    cases hl : lookupField data k with
    | none => rfl
    | some v =>
      cases v with
      | vStr s =>
        show (if containsSub old s = true then some (Value.vStr (strReplace old new s))
            else some (Value.vStr s)) =
          (if k ∈ fields ∧ containsSub old s = true then
            some (Value.vStr (strReplace old new s))
          else some (Value.vStr s))
        by_cases hcs : containsSub old s = true
        · rw [if_pos hcs, if_pos ⟨hk, hcs⟩]
        · rw [if_neg hcs, if_neg (fun hand => hcs hand.2)]
      | vNull => rfl
      | vTime t => rfl
      | vOther n => rfl
  · rw [replace_lookup_not_mem old new fields data k hk]
    cases hl : lookupField data k with
    | none => rfl
    | some v =>
      cases v with
      | vStr s =>
        show some (Value.vStr s) =
          (if k ∈ fields ∧ containsSub old s = true then
            some (Value.vStr (strReplace old new s))
          else some (Value.vStr s))
        rw [if_neg (fun hand => hk hand.1)]
      | vNull => rfl
      | vTime t => rfl
      | vOther n => rfl

/-- Witness for C1 at the default configuration, a ground-truth
candidate document, and the ground-truth field list. -/
theorem replace_url_in_dict_spec_witness :
    (OLD_URL ≠ [] ∧ groundtruthFields.Nodup) ∧
      ((replace_url_in_dict OLD_URL NEW_URL
          [(idKey, Value.vOther 1), (minioUrlKey, Value.vStr OLD_URL)] groundtruthFields).2 =
            true ↔
        ∃ f ∈ groundtruthFields, ∃ s,
          lookupField [(idKey, Value.vOther 1), (minioUrlKey, Value.vStr OLD_URL)] f =
            some (Value.vStr s) ∧ containsSub OLD_URL s = true) :=
  ⟨⟨by decide, by decide⟩,
   (replace_url_in_dict_spec OLD_URL NEW_URL
      [(idKey, Value.vOther 1), (minioUrlKey, Value.vStr OLD_URL)] groundtruthFields
      (by decide) (by decide)).2.1⟩

/-- C6: applying the rewrite to an already-migrated document, one none
of whose listed string fields contains the old prefix, is a no-op: the
document is returned unchanged and the changed flag is false. -/
theorem rewrite_noop_on_migrated (old new : List Char) (data : Doc) (fields : List String)
    (h : alreadyMigrated old fields data = true) :
    replace_url_in_dict old new data fields = (data, false) :=
  replace_unchanged_of_none old new fields data h

/-- Witness for C6: a document already holding the new prefix is left
unchanged with a false flag. -/
theorem rewrite_noop_on_migrated_witness :
    (alreadyMigrated OLD_URL groundtruthFields
        [(idKey, Value.vOther 2), (minioUrlKey, Value.vStr NEW_URL)] = true) ∧
      replace_url_in_dict OLD_URL NEW_URL
          [(idKey, Value.vOther 2), (minioUrlKey, Value.vStr NEW_URL)] groundtruthFields =
        ([(idKey, Value.vOther 2), (minioUrlKey, Value.vStr NEW_URL)], false) :=
  ⟨by decide,
   rewrite_noop_on_migrated OLD_URL NEW_URL
     [(idKey, Value.vOther 2), (minioUrlKey, Value.vStr NEW_URL)] groundtruthFields (by decide)⟩

/-- C7: the `updatedAt` timestamp is set in the update payload for every
update issued by the user-uploaded target processor, and a ground-truth
document that does not already carry an `updatedAt` field never gains
one from the ground-truth processor's updates. -/
theorem updatedAt_only_user_target (old new : List Char) (now : Nat) :
    (∀ (items : List (Doc × UpdOutcome)) (c : UpdateCall),
        c ∈ (process_user_clothes_collection old new now (QueryOutcome.ok items)).calls →
        lookupField c.payload updatedAtKey = some (Value.vTime now))
    ∧ (∀ (items : List (Doc × UpdOutcome)),
        (∀ p ∈ items, lookupField p.1 updatedAtKey = none) →
        ∀ c ∈ (process_groundtruth_collection old new now (QueryOutcome.ok items)).calls,
          lookupField c.payload updatedAtKey = none) := by
  constructor
  · intro items c hc
    rw [process_user_clothes_collection, processTarget_ok_calls] at hc
    rcases processLoop_calls_sound old new userClothesFields true now items c hc
      with ⟨p, _hp, hpd⟩
    simp only [processDoc] at hpd
    by_cases hr : (replace_url_in_dict old new p.1 userClothesFields).2 = true
    · rw [if_pos hr] at hpd
      injection hpd with hcall
      rw [← hcall]
      simp only [if_pos rfl]
      exact lookupField_setField_self updatedAtKey (Value.vTime now) _
    · rw [if_neg hr] at hpd
      exact absurd hpd (by simp)
  · intro items hnone c hc
    rw [process_groundtruth_collection, processTarget_ok_calls] at hc
    rcases processLoop_calls_sound old new groundtruthFields false now items c hc
      with ⟨p, hp, hpd⟩
    simp only [processDoc] at hpd
    by_cases hr : (replace_url_in_dict old new p.1 groundtruthFields).2 = true
    · rw [if_pos hr] at hpd
      injection hpd with hcall
      rw [← hcall]
      simp only [Bool.false_eq_true, if_false]
      rw [lookupField_popField]
      rw [if_neg (by decide : ¬ updatedAtKey = idKey)]
      rw [replace_lookup_not_mem old new groundtruthFields p.1 updatedAtKey (by decide)]
      exact hnone p hp
    · rw [if_neg hr] at hpd
      exact absurd hpd (by simp)

/-- Witness for C7: a ground-truth candidate without `updatedAt` leads
to an update whose payload still has no `updatedAt`. -/
theorem updatedAt_only_user_target_witness :
    (∀ p ∈ ([([(idKey, Value.vOther 1), (minioUrlKey, Value.vStr OLD_URL)],
          UpdOutcome.ok 1)] : List (Doc × UpdOutcome)),
        lookupField p.1 updatedAtKey = none) ∧
      (∀ c ∈ (process_groundtruth_collection OLD_URL NEW_URL 5 (QueryOutcome.ok
          [([(idKey, Value.vOther 1), (minioUrlKey, Value.vStr OLD_URL)],
            UpdOutcome.ok 1)])).calls,
        lookupField c.payload updatedAtKey = none) :=
  ⟨by decide,
   (updatedAt_only_user_target OLD_URL NEW_URL 5).2
     [([(idKey, Value.vOther 1), (minioUrlKey, Value.vStr OLD_URL)], UpdOutcome.ok 1)]
     (by decide)⟩

/-- C2 counterexample: at the default configuration and the ground-truth
target, the update payload built for a changed candidate document also
sets the unrelated, unchanged field `note` to its as-read value, so the
payload does not set only the changed fields. -/
theorem targeted_update_counterexample :
    processDoc OLD_URL NEW_URL groundtruthFields false 0
        [(idKey, Value.vOther 1), (minioUrlKey, Value.vStr OLD_URL),
         (noteKey, Value.vStr helloStr.data)] =
      some ⟨some (Value.vOther 1),
        [(minioUrlKey, Value.vStr NEW_URL), (noteKey, Value.vStr helloStr.data)]⟩
    ∧ ¬ payloadSetsOnlyChanged
        [(idKey, Value.vOther 1), (minioUrlKey, Value.vStr OLD_URL),
         (noteKey, Value.vStr helloStr.data)] groundtruthFields false
        ⟨some (Value.vOther 1),
         [(minioUrlKey, Value.vStr NEW_URL), (noteKey, Value.vStr helloStr.data)]⟩ := by
  refine ⟨by decide, fun h => ?_⟩
  have hnote := h noteKey (Value.vStr helloStr.data) (by decide)
  rcases hnote with ⟨hmem, _⟩ | ⟨hfalse, _⟩
  · exact absurd hmem (by decide)
  · exact absurd hfalse (by simp)

/-- C2 (amended): every issued update is restricted to the candidate
document's identifier; its payload omits the identifier but sets every
other field of the rewritten document, unchanged fields being set to
their as-read values.  Consequently, applying the payload to the
document as read alters no field outside the listed target fields and
the user-target `updatedAt` timestamp: every other field keeps its
original value, while matching target fields hold the rewritten
values. -/
theorem targeted_update_frame (old new : List Char) (fields : List String)
    (isUser : Bool) (now : Nat) (d : Doc) (call : UpdateCall)
    (hold : old ≠ []) (hnd : fields.Nodup)
    (hid : ¬ idKey ∈ fields) (hup : ¬ updatedAtKey ∈ fields)
    (hkeys : (d.map Prod.fst).Nodup)
    (hpd : processDoc old new fields isUser now d = some call) :
    call.docId = lookupField d idKey
    ∧ lookupField call.payload idKey = none
    ∧ (∀ k, ¬ k ∈ fields → k ≠ updatedAtKey →
        lookupField (applySet d call.payload) k = lookupField d k)
    ∧ (∀ f s, f ∈ fields → lookupField d f = some (Value.vStr s) →
        containsSub old s = true →
        lookupField (applySet d call.payload) f =
          some (Value.vStr (strReplace old new s)))
    ∧ (isUser = true → lookupField call.payload updatedAtKey = some (Value.vTime now)) := by
  simp only [processDoc] at hpd
  by_cases hr : (replace_url_in_dict old new d fields).2 = true
  · rw [if_pos hr] at hpd
    injection hpd with hcall
    subst hcall
    set md := (replace_url_in_dict old new d fields).1 with hmd
    have hmdkeys : md.map Prod.fst = d.map Prod.fst := keys_replace old new fields d
    have hp0nd : ((popField idKey md).map Prod.fst).Nodup :=
      nodup_keys_popField idKey md (hmdkeys ▸ hkeys)
    have hpaynd :
        (((if isUser then setField updatedAtKey (Value.vTime now) (popField idKey md)
            else popField idKey md) : Doc).map Prod.fst).Nodup := by
      cases isUser with
      | false => simpa using hp0nd
      | true => simpa using nodup_keys_setField updatedAtKey (Value.vTime now) _ hp0nd
    have hpayLookup : ∀ k, k ≠ updatedAtKey →
        lookupField ((if isUser then setField updatedAtKey (Value.vTime now)
            (popField idKey md) else popField idKey md) : Doc) k =
          lookupField (popField idKey md) k := by
      intro k hk
      cases isUser with
      | false => simp
      | true => simpa using lookupField_setField_ne updatedAtKey k (Value.vTime now) _ hk
    refine ⟨rfl, ?_, ?_, ?_, ?_⟩
    · show lookupField ((if isUser then setField updatedAtKey (Value.vTime now)
          (popField idKey md) else popField idKey md) : Doc) idKey = none
      rw [hpayLookup idKey (by decide), lookupField_popField, if_pos rfl]
    · intro k hkf hku
      show lookupField (applySet d ((if isUser then setField updatedAtKey (Value.vTime now)
          (popField idKey md) else popField idKey md) : Doc)) k = lookupField d k
      rw [applySet_lookup _ d k hpaynd, hpayLookup k hku, lookupField_popField]
      by_cases hki : k = idKey
      · rw [if_pos hki]
      · rw [if_neg hki, hmd, replace_lookup_not_mem old new fields d k hkf]
        cases lookupField d k <;> rfl
    · intro f s hf hls hcs
      have hfi : ¬ f = idKey := fun he => hid (he ▸ hf)
      have hfu : f ≠ updatedAtKey := fun he => hup (he ▸ hf)
      show lookupField (applySet d ((if isUser then setField updatedAtKey (Value.vTime now)
          (popField idKey md) else popField idKey md) : Doc)) f =
        some (Value.vStr (strReplace old new s))
      rw [applySet_lookup _ d f hpaynd, hpayLookup f hfu, lookupField_popField, if_neg hfi,
        hmd, replace_lookup_mem old new hold fields d f hnd hf, hls]
      simp [hcs]
    · intro hu
      subst hu
      show lookupField (setField updatedAtKey (Value.vTime now) (popField idKey md))
          updatedAtKey = some (Value.vTime now)
      exact lookupField_setField_self updatedAtKey (Value.vTime now) _
  · rw [if_neg hr] at hpd
    exact absurd hpd (by simp)

/-- Witness for C2's amended theorem at the counterexample document: the
issued payload omits the identifier field. -/
theorem targeted_update_frame_witness :
    (OLD_URL ≠ [] ∧ groundtruthFields.Nodup ∧ ¬ idKey ∈ groundtruthFields ∧
      ¬ updatedAtKey ∈ groundtruthFields ∧
      ((([(idKey, Value.vOther 1), (minioUrlKey, Value.vStr OLD_URL),
          (noteKey, Value.vStr helloStr.data)] : Doc)).map Prod.fst).Nodup) ∧
      lookupField [(minioUrlKey, Value.vStr NEW_URL), (noteKey, Value.vStr helloStr.data)]
        idKey = none :=
  ⟨⟨by decide, by decide, by decide, by decide, by decide⟩,
   (targeted_update_frame OLD_URL NEW_URL groundtruthFields false 0
      [(idKey, Value.vOther 1), (minioUrlKey, Value.vStr OLD_URL),
       (noteKey, Value.vStr helloStr.data)]
      ⟨some (Value.vOther 1),
       [(minioUrlKey, Value.vStr NEW_URL), (noteKey, Value.vStr helloStr.data)]⟩
      (by decide) (by decide) (by decide) (by decide) (by decide) (by decide)).2.1⟩

/-- C3 counterexample: at the default configuration the candidate query
is not an exact case-insensitive containment test.  The dots of the old
URL are not escaped and act as regex wildcards, so a document whose
field value does not contain the old prefix still matches the query. -/
theorem find_candidates_counterexample :
    ¬ (∀ d : Doc, queryMatches OLD_URL groundtruthFields d = true ↔
        (groundtruthFields.any (fun f =>
          match lookupField d f with
          | some (Value.vStr s) => containsCI OLD_URL s
          | _ => false)) = true) := by
  intro h
  have hm := (h [(minioUrlKey, Value.vStr cexStr.data)]).mp (by decide)
  exact absurd hm (by decide)

/-- C3 (amended): the candidate query is an `$or` over the target's
fields of case-insensitive regexes whose pattern is the old prefix with
only the path separator escaped.  For an old prefix over URL characters
it matches at least every document one of whose listed fields contains
the old prefix case-insensitively; it may also match documents that do
not contain the prefix, because the unescaped `.` acts as a wildcard. -/
theorem find_candidates_regex_sound (old : List Char) (fields : List String)
    (d : Doc) (f : String) (s : List Char)
    (hsafe : urlSafeChars old = true) (hf : f ∈ fields)
    (hl : lookupField d f = some (Value.vStr s)) (hci : containsCI old s = true) :
    queryMatches old fields d = true := by
  unfold queryMatches
  rw [List.any_eq_true]
  refine ⟨f, hf, ?_⟩
  simp only [hl]
  exact regex_sound_str old s hsafe hci

/-- Witness for C3's amended theorem: an upper-cased old URL in a
ground-truth field is found by the query. -/
theorem find_candidates_regex_sound_witness :
    (urlSafeChars OLD_URL = true ∧ minioUrlKey ∈ groundtruthFields ∧
      lookupField [(minioUrlKey, Value.vStr ciStr.data)] minioUrlKey =
        some (Value.vStr ciStr.data) ∧
      containsCI OLD_URL ciStr.data = true) ∧
      queryMatches OLD_URL groundtruthFields [(minioUrlKey, Value.vStr ciStr.data)] = true :=
  ⟨⟨by decide, by decide, by decide, by decide⟩,
   find_candidates_regex_sound OLD_URL groundtruthFields
     [(minioUrlKey, Value.vStr ciStr.data)] minioUrlKey ciStr.data
     (by decide) (by decide) (by decide) (by decide)⟩

/-- C4: every update call issued for a target names the identifier of a
candidate document one of whose listed fields contains the old prefix;
a candidate document none of whose listed string fields contains the old
prefix, and whose identifier no other candidate shares, never has its
identifier named in an update call. -/
theorem update_only_matching_docs (old new : List Char) (fields : List String)
    (isUser : Bool) (now : Nat) (items : List (Doc × UpdOutcome))
    (hold : old ≠ []) :
    (∀ c ∈ (processTarget old new fields isUser now (QueryOutcome.ok items)).calls,
        ∃ p, p ∈ items ∧ c.docId = lookupField p.1 idKey ∧
          ∃ f ∈ fields, ∃ s, lookupField p.1 f = some (Value.vStr s) ∧
            containsSub old s = true)
    ∧ (∀ d : Doc, (∀ q ∈ items, lookupField q.1 idKey = lookupField d idKey → q.1 = d) →
        alreadyMigrated old fields d = true →
        ∀ c ∈ (processTarget old new fields isUser now (QueryOutcome.ok items)).calls,
          c.docId ≠ lookupField d idKey) := by
  have hsound : ∀ c ∈ (processTarget old new fields isUser now
      (QueryOutcome.ok items)).calls,
      ∃ p, p ∈ items ∧ c.docId = lookupField p.1 idKey ∧
        ∃ f ∈ fields, ∃ s, lookupField p.1 f = some (Value.vStr s) ∧
          containsSub old s = true := by
    intro c hc
    rw [processTarget_ok_calls] at hc
    rcases processLoop_calls_sound old new fields isUser now items c hc with ⟨p, hp, hpd⟩
    simp only [processDoc] at hpd
    by_cases hr : (replace_url_in_dict old new p.1 fields).2 = true
    · rw [if_pos hr] at hpd
      injection hpd with hcall
      rcases (replace_flag old new hold fields p.1).1 hr with ⟨f, hf, s, hls, hcs⟩
      exact ⟨p, hp, by rw [← hcall], f, hf, s, hls, hcs⟩
    · rw [if_neg hr] at hpd
      exact absurd hpd (by simp)
  refine ⟨hsound, ?_⟩
  intro d hid hmig c hc heq
  rcases hsound c hc with ⟨p, hp, hcid, f, hf, s, hls, hcs⟩
  have hpd : p.1 = d := hid p hp (by rw [← hcid, heq])
  rw [hpd] at hls
  have hall := List.all_eq_true.1 hmig f hf
  rw [hls] at hall
  simp only [Bool.not_eq_true'] at hall
  rw [hall] at hcs
  exact absurd hcs (by simp)

/-- Witness for C4: with one matching and one already-migrated
candidate, the issued calls never name the migrated document's
identifier. -/
theorem update_only_matching_docs_witness :
    (OLD_URL ≠ [] ∧
      (∀ q ∈ ([([(idKey, Value.vOther 1), (minioUrlKey, Value.vStr OLD_URL)],
            UpdOutcome.ok 1),
           ([(idKey, Value.vOther 2), (minioUrlKey, Value.vStr NEW_URL)],
            UpdOutcome.ok 1)] : List (Doc × UpdOutcome)),
        lookupField q.1 idKey =
          lookupField [(idKey, Value.vOther 2), (minioUrlKey, Value.vStr NEW_URL)] idKey →
        q.1 = [(idKey, Value.vOther 2), (minioUrlKey, Value.vStr NEW_URL)]) ∧
      alreadyMigrated OLD_URL groundtruthFields
        [(idKey, Value.vOther 2), (minioUrlKey, Value.vStr NEW_URL)] = true) ∧
      (∀ c ∈ (processTarget OLD_URL NEW_URL groundtruthFields false 0 (QueryOutcome.ok
          [([(idKey, Value.vOther 1), (minioUrlKey, Value.vStr OLD_URL)],
            UpdOutcome.ok 1),
           ([(idKey, Value.vOther 2), (minioUrlKey, Value.vStr NEW_URL)],
            UpdOutcome.ok 1)])).calls,
        c.docId ≠
          lookupField [(idKey, Value.vOther 2), (minioUrlKey, Value.vStr NEW_URL)] idKey) :=
  ⟨⟨by decide, by decide, by decide⟩,
   (update_only_matching_docs OLD_URL NEW_URL groundtruthFields false 0
      [([(idKey, Value.vOther 1), (minioUrlKey, Value.vStr OLD_URL)], UpdOutcome.ok 1),
       ([(idKey, Value.vOther 2), (minioUrlKey, Value.vStr NEW_URL)], UpdOutcome.ok 1)]
      (by decide)).2
     [(idKey, Value.vOther 2), (minioUrlKey, Value.vStr NEW_URL)]
     (by decide) (by decide)⟩

/-- C8: when the initial store connection fails, the service logs the
failure and terminates before the polling loop: no cycle runs, no
statistics summary is printed, and the statistics remain at their
initial values. -/
theorem connect_failure_no_loop (cycles : List CycleInput) :
    runService false cycles = ([Event.connectFailed], initStats)
    ∧ ¬ Event.statsSummary ∈ (runService false cycles).1
    ∧ ¬ Event.cycleRan ∈ (runService false cycles).1
    ∧ (runService false cycles).2 = initStats := by
  refine ⟨rfl, ?_, ?_, rfl⟩ <;> simp [runService]

theorem processTarget_fail_mid (old new : List Char) (fields : List String)
    (isUser : Bool) (now : Nat) (pre post : List (Doc × UpdOutcome)) (d : Doc)
    (hok : pre.all itemOk = true)
    (hmod : (replace_url_in_dict old new d fields).2 = true) :
    processTarget old new fields isUser now
        (QueryOutcome.ok (pre ++ (d, UpdOutcome.fail) :: post)) =
      ⟨(processLoop old new fields isUser now pre).calls ++
        [⟨lookupField d idKey,
          (if isUser then setField updatedAtKey (Value.vTime now)
            (popField idKey (replace_url_in_dict old new d fields).1)
          else popField idKey (replace_url_in_dict old new d fields).1)⟩],
       0, 0, 1⟩ := by
  have hpd : processDoc old new fields isUser now d =
      some ⟨lookupField d idKey,
        (if isUser then setField updatedAtKey (Value.vTime now)
          (popField idKey (replace_url_in_dict old new d fields).1)
        else popField idKey (replace_url_in_dict old new d fields).1)⟩ := by
    simp [processDoc, hmod]
  have hloop := processLoop_append old new fields isUser now pre
    ((d, UpdOutcome.fail) :: post) hok
  rw [processLoop_fail_cons old new fields isUser now d post _ hpd] at hloop
  simp only [processTarget, hloop]
  rfl

/-- C5: a store failure partway through a target aborts the remainder of
that target's candidates (the result does not depend on the documents
after the failure), returns zero for the target, and increments the
error counter by one; and a query failure on the ground-truth target
leaves the user-uploaded target's processing in the same cycle entirely
unaffected. -/
theorem target_failure_isolated (old new : List Char) (fields : List String)
    (isUser : Bool) (now : Nat) :
    (∀ (pre post : List (Doc × UpdOutcome)) (d : Doc),
        pre.all itemOk = true →
        (replace_url_in_dict old new d fields).2 = true →
        processTarget old new fields isUser now
            (QueryOutcome.ok (pre ++ (d, UpdOutcome.fail) :: post)) =
          processTarget old new fields isUser now
            (QueryOutcome.ok (pre ++ [(d, UpdOutcome.fail)]))
        ∧ (processTarget old new fields isUser now
            (QueryOutcome.ok (pre ++ (d, UpdOutcome.fail) :: post))).retCount = 0
        ∧ (processTarget old new fields isUser now
            (QueryOutcome.ok (pre ++ (d, UpdOutcome.fail) :: post))).errInc = 1)
    ∧ (∀ (uc : QueryOutcome) (s : Stats),
        run_check old new now QueryOutcome.fail uc s =
          ⟨⟨s.groundtruth_updated,
            s.user_clothes_updated +
              (process_user_clothes_collection old new now uc).statsInc,
            s.errors + 1 + (process_user_clothes_collection old new now uc).errInc,
            some now⟩,
           0, (process_user_clothes_collection old new now uc).retCount,
           [], (process_user_clothes_collection old new now uc).calls⟩) := by
  constructor
  · intro pre post d hok hmod
    rw [processTarget_fail_mid old new fields isUser now pre post d hok hmod,
      processTarget_fail_mid old new fields isUser now pre [] d hok hmod]
    exact ⟨rfl, rfl, rfl⟩
  · intro uc s
    simp only [run_check, process_groundtruth_collection, processTarget]
    rfl

/-- Witness for C5 at a concrete one-successful-then-failing candidate
list: the failing pass returns zero and increments the error counter. -/
theorem target_failure_isolated_witness :
    (([([(idKey, Value.vOther 1), (minioUrlKey, Value.vStr OLD_URL)],
          UpdOutcome.ok 1)] : List (Doc × UpdOutcome)).all itemOk = true ∧
      (replace_url_in_dict OLD_URL NEW_URL
        [(idKey, Value.vOther 2), (s3UrlKey, Value.vStr OLD_URL)] groundtruthFields).2 =
          true) ∧
      (processTarget OLD_URL NEW_URL groundtruthFields false 0 (QueryOutcome.ok
        ([([(idKey, Value.vOther 1), (minioUrlKey, Value.vStr OLD_URL)], UpdOutcome.ok 1)] ++
          ([(idKey, Value.vOther 2), (s3UrlKey, Value.vStr OLD_URL)], UpdOutcome.fail) ::
          [([(idKey, Value.vOther 3), (minioUrlKey, Value.vStr OLD_URL)],
            UpdOutcome.ok 1)]))).retCount = 0 ∧
      (processTarget OLD_URL NEW_URL groundtruthFields false 0 (QueryOutcome.ok
        ([([(idKey, Value.vOther 1), (minioUrlKey, Value.vStr OLD_URL)], UpdOutcome.ok 1)] ++
          ([(idKey, Value.vOther 2), (s3UrlKey, Value.vStr OLD_URL)], UpdOutcome.fail) ::
          [([(idKey, Value.vOther 3), (minioUrlKey, Value.vStr OLD_URL)],
            UpdOutcome.ok 1)]))).errInc = 1 :=
  ⟨⟨by decide, by decide⟩,
   ((target_failure_isolated OLD_URL NEW_URL groundtruthFields false 0).1
      [([(idKey, Value.vOther 1), (minioUrlKey, Value.vStr OLD_URL)], UpdOutcome.ok 1)]
      [([(idKey, Value.vOther 3), (minioUrlKey, Value.vStr OLD_URL)], UpdOutcome.ok 1)]
      [(idKey, Value.vOther 2), (s3UrlKey, Value.vStr OLD_URL)]
      (by decide) (by decide)).2⟩

/-- C9: when the store raises no error for a target's candidates, the
processor reports no error and the returned count is exactly the number
of candidates for which an update was issued and the store reported a
positive modified count; an update whose modified count is zero is not
counted and is not an error. -/
theorem count_only_modified_updates (old new : List Char) (fields : List String)
    (isUser : Bool) (now : Nat) (items : List (Doc × UpdOutcome))
    (hok : items.all itemOk = true) :
    (processTarget old new fields isUser now (QueryOutcome.ok items)).errInc = 0
    ∧ (processTarget old new fields isUser now (QueryOutcome.ok items)).retCount =
        (items.filter (countedItem old new fields isUser now)).length := by
  rcases processLoop_all_ok old new fields isUser now items hok with ⟨herr, hcount⟩
  simp [processTarget, herr, hcount]

/-- Witness for C9: two changed candidates, one whose update matched but
modified nothing; only the other is counted and no error is reported. -/
theorem count_only_modified_updates_witness :
    (([([(idKey, Value.vOther 1), (minioUrlKey, Value.vStr OLD_URL)], UpdOutcome.ok 0),
       ([(idKey, Value.vOther 2), (minioUrlKey, Value.vStr OLD_URL)],
        UpdOutcome.ok 1)] : List (Doc × UpdOutcome)).all itemOk = true) ∧
      (processTarget OLD_URL NEW_URL groundtruthFields false 0 (QueryOutcome.ok
        [([(idKey, Value.vOther 1), (minioUrlKey, Value.vStr OLD_URL)], UpdOutcome.ok 0),
         ([(idKey, Value.vOther 2), (minioUrlKey, Value.vStr OLD_URL)],
          UpdOutcome.ok 1)])).errInc = 0 ∧
      (processTarget OLD_URL NEW_URL groundtruthFields false 0 (QueryOutcome.ok
        [([(idKey, Value.vOther 1), (minioUrlKey, Value.vStr OLD_URL)], UpdOutcome.ok 0),
         ([(idKey, Value.vOther 2), (minioUrlKey, Value.vStr OLD_URL)],
          UpdOutcome.ok 1)])).retCount =
        ([([(idKey, Value.vOther 1), (minioUrlKey, Value.vStr OLD_URL)], UpdOutcome.ok 0),
          ([(idKey, Value.vOther 2), (minioUrlKey, Value.vStr OLD_URL)],
           UpdOutcome.ok 1)].filter
            (countedItem OLD_URL NEW_URL groundtruthFields false 0)).length :=
  ⟨by decide,
   count_only_modified_updates OLD_URL NEW_URL groundtruthFields false 0
     [([(idKey, Value.vOther 1), (minioUrlKey, Value.vStr OLD_URL)], UpdOutcome.ok 0),
      ([(idKey, Value.vOther 2), (minioUrlKey, Value.vStr OLD_URL)], UpdOutcome.ok 1)]
     (by decide)⟩

/-- C10: on a mid-target store failure the per-target statistics counter
receives no increment (even for documents already successfully updated
before the failure) while the error counter is incremented by one and
zero is returned; on a pass with no store error the statistics counter
is incremented by exactly the returned count with no error increment. -/
theorem stats_only_on_clean_pass (old new : List Char) (fields : List String)
    (isUser : Bool) (now : Nat) :
    (∀ (pre post : List (Doc × UpdOutcome)) (d : Doc),
        pre.all itemOk = true →
        (replace_url_in_dict old new d fields).2 = true →
        (processTarget old new fields isUser now
            (QueryOutcome.ok (pre ++ (d, UpdOutcome.fail) :: post))).statsInc = 0
        ∧ (processTarget old new fields isUser now
            (QueryOutcome.ok (pre ++ (d, UpdOutcome.fail) :: post))).errInc = 1
        ∧ (processTarget old new fields isUser now
            (QueryOutcome.ok (pre ++ (d, UpdOutcome.fail) :: post))).retCount = 0)
    ∧ (∀ (items : List (Doc × UpdOutcome)), items.all itemOk = true →
        (processTarget old new fields isUser now (QueryOutcome.ok items)).statsInc =
          (processTarget old new fields isUser now (QueryOutcome.ok items)).retCount
        ∧ (processTarget old new fields isUser now (QueryOutcome.ok items)).errInc = 0) := by
  constructor
  · intro pre post d hok hmod
    rw [processTarget_fail_mid old new fields isUser now pre post d hok hmod]
    exact ⟨rfl, rfl, rfl⟩
  · intro items hok
    rcases processLoop_all_ok old new fields isUser now items hok with ⟨herr, _⟩
    simp only [processTarget, herr, Bool.false_eq_true, if_false]
    constructor
    · by_cases hc : 0 < (processLoop old new fields isUser now items).count
      · simp [hc]
      · simp only [if_neg hc]
        omega
    · trivial

/-- Witness for C10: one successful update before the failing one; the
statistics increment is zero and the error increment is one. -/
theorem stats_only_on_clean_pass_witness :
    (([([(idKey, Value.vOther 1), (minioUrlKey, Value.vStr OLD_URL)],
          UpdOutcome.ok 1)] : List (Doc × UpdOutcome)).all itemOk = true ∧
      (replace_url_in_dict OLD_URL NEW_URL
        [(idKey, Value.vOther 2), (minioUrlKey, Value.vStr OLD_URL)] groundtruthFields).2 =
          true) ∧
      (processTarget OLD_URL NEW_URL groundtruthFields false 0 (QueryOutcome.ok
        ([([(idKey, Value.vOther 1), (minioUrlKey, Value.vStr OLD_URL)], UpdOutcome.ok 1)] ++
          ([(idKey, Value.vOther 2), (minioUrlKey, Value.vStr OLD_URL)], UpdOutcome.fail) ::
          ([] : List (Doc × UpdOutcome))))).statsInc = 0 ∧
      (processTarget OLD_URL NEW_URL groundtruthFields false 0 (QueryOutcome.ok
        ([([(idKey, Value.vOther 1), (minioUrlKey, Value.vStr OLD_URL)], UpdOutcome.ok 1)] ++
          ([(idKey, Value.vOther 2), (minioUrlKey, Value.vStr OLD_URL)], UpdOutcome.fail) ::
          ([] : List (Doc × UpdOutcome))))).errInc = 1 ∧
      (processTarget OLD_URL NEW_URL groundtruthFields false 0 (QueryOutcome.ok
        ([([(idKey, Value.vOther 1), (minioUrlKey, Value.vStr OLD_URL)], UpdOutcome.ok 1)] ++
          ([(idKey, Value.vOther 2), (minioUrlKey, Value.vStr OLD_URL)], UpdOutcome.fail) ::
          ([] : List (Doc × UpdOutcome))))).retCount = 0 :=
  ⟨⟨by decide, by decide⟩,
   (stats_only_on_clean_pass OLD_URL NEW_URL groundtruthFields false 0).1
     [([(idKey, Value.vOther 1), (minioUrlKey, Value.vStr OLD_URL)], UpdOutcome.ok 1)]
     ([] : List (Doc × UpdOutcome))
     [(idKey, Value.vOther 2), (minioUrlKey, Value.vStr OLD_URL)]
     (by decide) (by decide)⟩

end UrlMigration
